import Mathlib

/-!
Verification of `tools/serial_read.py`, a serial-port dump tool that parses
LIN-bus frame lines and reports per-bit diffs against the last frame seen for
each identifier.

Modelling conventions:
* Python strings are modelled as `List Char`.
* Python `dict` (the `last_bit_lists` history table) is modelled as an
  association list with first-match lookup and in-place update.
* Fallible operations (regex non-match, list indexing that can raise
  `IndexError`) return `Option`; a propagated exception in the main loop is
  the `crash` constructor of `StepResult`.
* Character classes of the frame regex are expressed through code points:
  48–57 are `'0'`–`'9'`, 97–102 are `'a'`–`'f'`, 65–70 are `'A'`–`'F'`,
  32 is the space character, 10 is the line feed.
* Python's `$` anchor (without `re.MULTILINE`) matches at the end of the
  string or just before a newline that ends the string, so `parseLine`
  applies the anchored regex body (`frameMatch`) to the line with one
  trailing newline removed (`dollarRegion`).
-/

/-- A character matched by the regex class `[0-9a-f]`: a digit or a lowercase
hex letter, by code point. -/
def isLowerHexDigit (c : Char) : Bool :=
  (48 ≤ c.toNat && c.toNat ≤ 57) || (97 ≤ c.toNat && c.toNat ≤ 102)

/-- An uppercase hex letter `A`–`F`, by code point (used only in statements
about rejection of uppercase input). -/
def isUpperHexLetter (c : Char) : Bool :=
  65 ≤ c.toNat && c.toNat ≤ 70

/-- A string that is exactly two lowercase hex digits, as required by the
`([0-9a-f]{2})` groups of `kFrameRegex`. -/
def isHexPair : List Char → Bool
  | [a, b] => isLowerHexDigit a && isLowerHexDigit b
  | _ => false

/-- `class LinFrame`: a parsed LIN frame with identifier, ordered data bytes
and checksum, each kept as the hex text captured from the line. -/
structure LinFrame where
  id : List Char
  data : List (List Char)
  checksum : List Char
  deriving DecidableEq, Repr

/-- The tail of `kFrameRegex` after the identifier: a maximal run of
`" hh"` groups (`(?: [0-9a-f]{2})` triples) covering the rest of the line,
returned in order.  Because every group is exactly three characters and the
pattern is anchored at both ends, the regex match is this unambiguous
decomposition. -/
def parsePairs : List Char → Option (List (List Char))
  | c :: a :: b :: rest =>
      if c == ' ' && isLowerHexDigit a && isLowerHexDigit b then
        (parsePairs rest).map (fun gs => [a, b] :: gs)
      else none
  | [] => some []
  | _ => none

/-- The body of `kFrameRegex`,
`^([0-9a-f]{2})((?: [0-9a-f]{2})+) ([0-9a-f]{2})$`, applied to the region the
anchors delimit.  The first two characters are the identifier; the remaining
`" hh"` groups must number at least two (one or more data bytes plus the
checksum); the greedy middle capture takes all groups but the last, which is
the checksum. -/
def frameMatch (region : List Char) : Option LinFrame :=
  match region with
  | a :: b :: rest =>
      if isLowerHexDigit a && isLowerHexDigit b then
        match parsePairs rest with
        | some gs =>
            match gs.getLast? with
            | some ck => if 2 ≤ gs.length then some ⟨[a, b], gs.dropLast, ck⟩ else none
            | none => none
        | none => none
      else none
  | _ => none

/-- The region Python's `^...$` anchors delimit in `re.match`: the whole
string, except that `$` also matches just before a newline that ends the
string, so one trailing `'\n'` is excluded. -/
def dollarRegion (l : List Char) : List Char :=
  if l.getLast? = some '\n' then l.dropLast else l

/-- `parseLine`: match the line against `kFrameRegex` and return the frame,
or `none` when the line is not a frame.  Mirrors `kFrameRegex.match(line)`,
including `$` accepting a single trailing newline. -/
def parseLine (line : List Char) : Option LinFrame :=
  frameMatch (dollarRegion line)

/-- Value of one lowercase hex digit, as `int(_, 16)` computes it
(only meaningful on characters accepted by `isLowerHexDigit`). -/
def hexDigitVal (c : Char) : Nat :=
  if c.toNat ≤ 57 then c.toNat - 48 else c.toNat - 87

/-- `int(hex_str, 16)` on a lowercase hex string. -/
def hexStrToNat (s : List Char) : Nat :=
  s.foldl (fun acc c => 16 * acc + hexDigitVal c) 0

/-- Python `str.zfill(8)`: left-pad with `'0'` to width at least 8. -/
def zfill8 (l : List Char) : List Char :=
  List.replicate (8 - l.length) '0' ++ l

/-- `hexListToBitList`: convert a list of two-hex-digit strings to a list of
single binary digit characters; each byte contributes
`bin(int(hex_str, 16))[2:].zfill(8)` (binary digits without leading zeros,
then left-padded to 8), concatenated in byte order. -/
def hexListToBitList (hexList : List (List Char)) : List Char :=
  hexList.flatMap (fun s => zfill8 (Nat.toDigits 2 (hexStrToNat s)))

/-- The spec's description of the bit expansion, stated independently of the
source: bit `i` of the output byte block is the `(7-i)`-th binary digit of the
value, most significant bit first.  Used to compare `hexListToBitList`
against the spec's words. -/
def specMsbBits (n : Nat) : List Char :=
  (List.range 8).map (fun i => if n.testBit (7 - i) then '1' else '0')

/-- `diffBitLists`: for each index of the new bit list, the new bit if it
differs from the old bit at that index, else `"-"`.  Indexing
`old_bit_list[idx]` raises `IndexError` when the old list is too short; that
failure is `none`. -/
def diffBitLists : List Char → List Char → Option (List Char)
  | _, [] => some []
  | [], _ :: _ => none
  | o :: os, n :: ns =>
      (diffBitLists os ns).map (fun r => (if n ≠ o then n else '-') :: r)

/-- The chunks `str[i : i+n]` for `i in range(0, len(str), n)`, with chunk
size `m + 1` (Python's `range` with step 0 raises, so only positive sizes
occur). -/
def chunksAux (m : Nat) : List Char → List (List Char)
  | [] => []
  | c :: rest => (c :: rest.take m) :: chunksAux m (rest.drop m)
  termination_by l => l.length
  decreasing_by
    simp only [List.length_drop, List.length_cons]
    omega

/-- `insertSeperators`: `sep.join(str[i:i+n] for i in range(0, len(str), n))`.
For `n = 0` Python's `range` raises `ValueError`; the program only calls this
with `n = 4` and `n = 10`, so that branch is left as the empty string. -/
def insertSeperators (s : List Char) (n : Nat) (sep : List Char) : List Char :=
  match n with
  | 0 => []
  | m + 1 => List.intercalate sep (chunksAux m s)

/-- The history table `last_bit_lists`: identifier → last seen bit list. -/
abbrev HistTable := List (List Char × List Char)

/-- `id in last_bit_lists` / `last_bit_lists[id]`: first-match lookup. -/
def lookupHist : HistTable → List Char → Option (List Char)
  | [], _ => none
  | (k, v) :: rest, i => if k = i then some v else lookupHist rest i

/-- `last_bit_lists[id] = new_bit_list`: replace the entry for the key, or
append a fresh one. -/
def setHist : HistTable → List Char → List Char → HistTable
  | [], i, v => [(i, v)]
  | (k, w) :: rest, i, v =>
      if k = i then (i, v) :: rest else (k, w) :: setHist rest i v

/-- Outcome of one iteration of the diff-mode branch of `main`'s loop:
either a (possibly absent) emitted line together with the updated history
table, or a crash (`IndexError` escaping `diffBitLists`), which in Python
kills the process after the history assignment already happened. -/
inductive StepResult where
  | ok (hist : HistTable) (output : Option (List Char))
  | crash (hist : HistTable)
  deriving DecidableEq, Repr

/-- The history table carried by a step outcome. -/
def StepResult.hist : StepResult → HistTable
  | .ok h _ => h
  | .crash h => h

/-- One iteration of the diff-mode branch of `main`'s loop, from `frame =
parseLine(line)` to the `sys.stdout.write(out_line)`: parse the line, expand
the data bytes to bits, consult and update `last_bit_lists`, and emit a
grouped diff line when the bits changed. -/
def processDiffLine (timestamp : List Char) (hist : HistTable) (line : List Char) :
    StepResult :=
  match parseLine line with
  | none => .ok hist none
  | some frame =>
      let newBits := hexListToBitList frame.data
      match lookupHist hist frame.id with
      | none => .ok (setHist hist frame.id newBits) none
      | some oldBits =>
          let hist2 := setHist hist frame.id newBits
          if newBits = oldBits then .ok hist2 none
          else
            match diffBitLists oldBits newBits with
            | none => .crash hist2
            | some diffBits =>
                let diffStr1 := insertSeperators diffBits 4 [' ']
                let diffStr2 := insertSeperators diffStr1 10 ['|', ' ']
                .ok hist2 (some (timestamp ++ "  ".toList ++ frame.id ++ ": | ".toList
                  ++ diffStr2 ++ " |\n".toList))

/-- Test-harness constructor: the `" hh"`-group region of a frame line built
from the given groups. -/
def flatPairs (gs : List (List Char)) : List Char :=
  gs.flatMap (fun g => ' ' :: g)

/-- Test-harness constructor: the line `"ID B1 ... Bn CK"` with
single-space separators. -/
def mkFrameLine (i : List Char) (data : List (List Char)) (ck : List Char) :
    List Char :=
  i ++ flatPairs (data ++ [ck])

/-- Python's `str.split()` whitespace, by code point: 9 tab, 10 line feed,
11 vertical tab, 12 form feed, 13 carriage return, 32 space. -/
def isPySpace (c : Char) : Bool :=
  c.toNat == 32 || c.toNat == 9 || c.toNat == 10 || c.toNat == 11 ||
    c.toNat == 12 || c.toNat == 13

/-- The trailing whitespace-separated token of a line (what `"x y z".split()`
would return last): drop any trailing whitespace, then take the maximal
whitespace-free run at the end; empty when the line is all whitespace. -/
def lastToken (l : List Char) : List Char :=
  ((l.reverse.dropWhile isPySpace).takeWhile (fun c => !isPySpace c)).reverse

/-! ### Lemmas about `diffBitLists` -/

/-- When the new list is no longer than the old one, `diffBitLists` succeeds
and the mask is characterized positionally. -/
theorem diffBitLists_spec :
    ∀ old new : List Char, new.length ≤ old.length →
    ∃ m, diffBitLists old new = some m ∧ m.length = new.length ∧
      ∀ i, i < new.length →
        m.getD i ' ' = if new.getD i ' ' ≠ old.getD i ' ' then new.getD i ' ' else '-'
  | old, [], _ => by
      refine ⟨[], ?_, rfl, fun i hi => by simp at hi⟩
      cases old <;> rfl
  | [], n :: ns, h => by simp at h
  | o :: os, n :: ns, h => by
      obtain ⟨m, hm, hlen, hpt⟩ := diffBitLists_spec os ns (by simpa using h)
      refine ⟨(if n ≠ o then n else '-') :: m, ?_, by simpa using hlen, ?_⟩
      · simp [diffBitLists, hm]
      · intro i hi
        cases i with
        | zero => simp
        | succ j =>
            simp only [List.getD_cons_succ]
            exact hpt j (by simpa using hi)

/-- When the new list is strictly longer than the old one, the indexing
`old_bit_list[idx]` goes out of range and `diffBitLists` fails. -/
theorem diffBitLists_oob :
    ∀ old new : List Char, old.length < new.length → diffBitLists old new = none
  | _, [], h => by simp at h
  | [], n :: ns, _ => rfl
  | o :: os, n :: ns, h => by
      simp [diffBitLists, diffBitLists_oob os ns (by simpa using h)]

/-! ### Lemmas about the history table -/

/-- After `setHist`, the key maps to the stored value. -/
theorem lookupHist_setHist_self :
    ∀ (h : HistTable) (i v : List Char), lookupHist (setHist h i v) i = some v
  | [], i, v => by simp [setHist, lookupHist]
  | (k, w) :: rest, i, v => by
      by_cases hk : k = i
      · simp [setHist, hk, lookupHist]
      · simp [setHist, hk, lookupHist, lookupHist_setHist_self rest i v]

/-! ### Character-class facts -/

/-- A lowercase hex digit is not the space character. -/
theorem isLowerHexDigit_ne_space {c : Char} (h : isLowerHexDigit c = true) : c ≠ ' ' := by
  intro heq
  subst heq
  exact absurd h (by decide)

/-- An uppercase hex letter is not in `[0-9a-f]`, not a space, and not a
newline. -/
theorem isUpperHexLetter_not_lower {c : Char} (h : isUpperHexLetter c = true) :
    isLowerHexDigit c = false ∧ c ≠ ' ' ∧ c ≠ '\n' := by
  have hc : 65 ≤ c.toNat ∧ c.toNat ≤ 70 := by
    simpa [isUpperHexLetter] using h
  refine ⟨?_, ?_, ?_⟩
  · rw [Bool.eq_false_iff]
    intro hl
    have : (48 ≤ c.toNat ∧ c.toNat ≤ 57) ∨ (97 ≤ c.toNat ∧ c.toNat ≤ 102) := by
      simpa [isLowerHexDigit] using hl
    omega
  · intro heq
    subst heq
    exact absurd hc (by decide)
  · intro heq
    subst heq
    exact absurd hc (by decide)

/-- A lowercase hex digit is not the newline character. -/
theorem isLowerHexDigit_ne_newline {c : Char} (h : isLowerHexDigit c = true) :
    c ≠ '\n' := by
  intro heq
  subst heq
  exact absurd h (by decide)

/-- A lowercase hex digit is not `str.split()` whitespace. -/
theorem isLowerHexDigit_not_pySpace {c : Char} (h : isLowerHexDigit c = true) :
    isPySpace c = false := by
  have hc : (48 ≤ c.toNat ∧ c.toNat ≤ 57) ∨ (97 ≤ c.toNat ∧ c.toNat ≤ 102) := by
    simpa [isLowerHexDigit] using h
  simp only [isPySpace, Bool.or_eq_false_iff, beq_eq_false_iff_ne, ne_eq]
  omega

/-- A two-hex-digit group is literally two lowercase hex digit characters. -/
theorem exists_of_isHexPair {g : List Char} (h : isHexPair g = true) :
    ∃ a b, g = [a, b] ∧ isLowerHexDigit a = true ∧ isLowerHexDigit b = true := by
  cases g with
  | nil => simp [isHexPair] at h
  | cons a t =>
    cases t with
    | nil => simp [isHexPair] at h
    | cons b t2 =>
      cases t2 with
      | nil =>
          refine ⟨a, b, rfl, ?_⟩
          simpa [isHexPair, Bool.and_eq_true] using h
      | cons c t3 => simp [isHexPair] at h

/-- Every character of a two-hex-digit group is a lowercase hex digit. -/
theorem mem_hexPair {g : List Char} {c : Char} (h : isHexPair g = true) (hc : c ∈ g) :
    isLowerHexDigit c = true := by
  obtain ⟨a, b, rfl, ha, hb⟩ := exists_of_isHexPair h
  rcases List.mem_pair.mp hc with rfl | rfl
  · exact ha
  · exact hb

/-! ### Soundness and completeness of the frame parser -/

/-- `parsePairs` accepts the `" hh"`-group region built from hex pairs and
recovers exactly those groups. -/
theorem parsePairs_flatPairs :
    ∀ gs : List (List Char), (∀ g ∈ gs, isHexPair g = true) →
    parsePairs (flatPairs gs) = some gs
  | [], _ => rfl
  | g :: gs, h => by
      obtain ⟨a, b, rfl, ha, hb⟩ := exists_of_isHexPair (h g (List.mem_cons_self g gs))
      have ih := parsePairs_flatPairs gs (fun g' hg' => h g' (List.mem_cons_of_mem _ hg'))
      simp [flatPairs, parsePairs, ha, hb, ih]
      simpa [flatPairs] using ih

/-- Any input accepted by `parsePairs` is exactly a sequence of space-prefixed
hex pairs, and the recovered groups are those pairs. -/
theorem parsePairs_sound :
    ∀ r gs, parsePairs r = some gs →
      r = flatPairs gs ∧ ∀ g ∈ gs, isHexPair g = true
  | [], gs, h => by
      simp only [parsePairs, Option.some.injEq] at h
      subst h
      exact ⟨rfl, by simp⟩
  | [c], gs, h => by simp [parsePairs] at h
  | [c, a], gs, h => by simp [parsePairs] at h
  | c :: a :: b :: rest, gs, h => by
      simp only [parsePairs] at h
      by_cases hcond : (c == ' ' && isLowerHexDigit a && isLowerHexDigit b) = true
      · rw [if_pos hcond] at h
        obtain ⟨gs', hgs', rfl⟩ := Option.map_eq_some'.mp h
        obtain ⟨hr, hall⟩ := parsePairs_sound rest gs' hgs'
        have hc : c = ' ' ∧ isLowerHexDigit a = true ∧ isLowerHexDigit b = true := by
          simpa [Bool.and_eq_true, and_assoc] using hcond
        obtain ⟨rfl, ha, hb⟩ := hc
        subst hr
        refine ⟨by simp [flatPairs], ?_⟩
        intro g hg
        rcases List.mem_cons.mp hg with rfl | hg'
        · simp [isHexPair, ha, hb]
        · exact hall g hg'
      · rw [if_neg hcond] at h
        exact absurd h (by simp)

/-- A list whose `getLast?` is `some a` is its `dropLast` followed by `[a]`. -/
theorem eq_dropLast_concat_of_getLast? {α : Type} {l : List α} {a : α}
    (h : l.getLast? = some a) : l = l.dropLast ++ [a] :=
  (List.dropLast_append_getLast? a h).symm

/-- Soundness of the anchored regex body: any accepted region is exactly the
frame line rebuilt from the returned identifier, data bytes and checksum, and
all three components are wellformed hex. -/
theorem frameMatch_sound {l : List Char} {f : LinFrame} (h : frameMatch l = some f) :
    isHexPair f.id = true ∧ (∀ g ∈ f.data, isHexPair g = true) ∧
    isHexPair f.checksum = true ∧ f.data ≠ [] ∧
    l = mkFrameLine f.id f.data f.checksum := by
  match l with
  | [] => simp [frameMatch] at h
  | [a] => simp [frameMatch] at h
  | a :: b :: rest =>
    simp only [frameMatch] at h
    by_cases hab : (isLowerHexDigit a && isLowerHexDigit b) = true
    case neg => rw [if_neg hab] at h; exact absurd h (by simp)
    rw [if_pos hab] at h
    cases hps : parsePairs rest with
    | none => rw [hps] at h; exact absurd h (by simp)
    | some gs =>
      rw [hps] at h
      dsimp only at h
      cases hlast : gs.getLast? with
      | none => rw [hlast] at h; exact absurd h (by simp)
      | some ck =>
        rw [hlast] at h
        dsimp only at h
        by_cases hlen : 2 ≤ gs.length
        case neg => rw [if_neg hlen] at h; exact absurd h (by simp)
        rw [if_pos hlen] at h
        obtain rfl : f = ⟨[a, b], gs.dropLast, ck⟩ := (Option.some.injEq _ _ ▸ h).symm
        obtain ⟨hr, hall⟩ := parsePairs_sound rest gs hps
        have hgs : gs = gs.dropLast ++ [ck] := eq_dropLast_concat_of_getLast? hlast
        obtain ⟨ha, hb⟩ := Bool.and_eq_true _ _ ▸ hab
        refine ⟨by simp [isHexPair, ha, hb], ?_, ?_, ?_, ?_⟩
        · intro g hg
          exact hall g (List.dropLast_subset gs hg)
        · exact hall ck (List.mem_of_mem_getLast? (by rw [hlast]; rfl))
        · intro hnil
          dsimp only at hnil
          have hlen2 : gs.length = gs.dropLast.length + 1 := by
            conv_lhs => rw [hgs]
            simp
          rw [hnil] at hlen2
          simp only [List.length_nil, Nat.zero_add] at hlen2
          omega
        · show a :: b :: rest = mkFrameLine [a, b] gs.dropLast ck
          rw [mkFrameLine, ← hgs, ← hr]
          rfl

/-- Completeness of the anchored regex body: every wellformed frame line
matches as the frame it was built from. -/
theorem frameMatch_complete {i ck : List Char} {data : List (List Char)}
    (hi : isHexPair i = true) (hck : isHexPair ck = true)
    (hdata : ∀ g ∈ data, isHexPair g = true) (hne : data ≠ []) :
    frameMatch (mkFrameLine i data ck) = some ⟨i, data, ck⟩ := by
  obtain ⟨a, b, rfl, ha, hb⟩ := exists_of_isHexPair hi
  have hall : ∀ g ∈ data ++ [ck], isHexPair g = true := by
    intro g hg
    rcases List.mem_append.mp hg with h | h
    · exact hdata g h
    · rw [List.mem_singleton.mp h]
      exact hck
  have hps : parsePairs (flatPairs (data ++ [ck])) = some (data ++ [ck]) :=
    parsePairs_flatPairs _ hall
  have hline : mkFrameLine [a, b] data ck = a :: b :: flatPairs (data ++ [ck]) := rfl
  rw [hline]
  simp only [frameMatch, ha, hb, Bool.and_self, if_pos, hps]
  rw [List.getLast?_concat]
  dsimp only
  have hpos : 0 < data.length := List.length_pos.mpr hne
  rw [if_pos (by simp only [List.length_append, List.length_singleton]; omega)]
  rw [List.dropLast_concat]

/-- Every character of a wellformed frame line is a lowercase hex digit or a
space. -/
theorem mkFrameLine_chars {i ck : List Char} {data : List (List Char)}
    (hid : isHexPair i = true) (hck : isHexPair ck = true)
    (hdata : ∀ g ∈ data, isHexPair g = true) :
    ∀ c ∈ mkFrameLine i data ck, isLowerHexDigit c = true ∨ c = ' ' := by
  intro c hc
  rcases List.mem_append.mp hc with hcid | hcfp
  · exact Or.inl (mem_hexPair hid hcid)
  · obtain ⟨g, hgmem, hcg⟩ := List.mem_flatMap.mp hcfp
    rcases List.mem_cons.mp hcg with rfl | hcg'
    · exact Or.inr rfl
    · refine Or.inl (mem_hexPair ?_ hcg')
      rcases List.mem_append.mp hgmem with h' | h'
      · exact hdata g h'
      · rw [List.mem_singleton.mp h']
        exact hck

/-- A wellformed frame line ends in a lowercase hex digit. -/
theorem mkFrameLine_getLast {i ck : List Char} {data : List (List Char)}
    (hck : isHexPair ck = true) :
    ∃ c, (mkFrameLine i data ck).getLast? = some c ∧ isLowerHexDigit c = true := by
  obtain ⟨c1, c2, hckeq, hc1, hc2⟩ := exists_of_isHexPair hck
  refine ⟨c2, ?_, hc2⟩
  have heq2 : mkFrameLine i data ck
      = (i ++ flatPairs data ++ [' ', c1]) ++ [c2] := by
    simp [mkFrameLine, flatPairs, hckeq]
  rw [heq2, List.getLast?_concat]

/-- A region accepted by the regex body ends in a lowercase hex digit. -/
theorem frameMatch_getLast {l : List Char} {f : LinFrame} (h : frameMatch l = some f) :
    ∃ c, l.getLast? = some c ∧ isLowerHexDigit c = true := by
  obtain ⟨-, -, hck, -, rfl⟩ := frameMatch_sound h
  exact mkFrameLine_getLast hck

/-- The regex body rejects anything that ends in a nonempty run of non-hex
characters. -/
theorem frameMatch_nonhex_end {pre sfx : List Char} (hs : sfx ≠ [])
    (hnh : ∀ c ∈ sfx, isLowerHexDigit c = false) :
    frameMatch (pre ++ sfx) = none := by
  by_contra hcon
  obtain ⟨f, hf⟩ := Option.ne_none_iff_exists'.mp hcon
  obtain ⟨c, hcl, hchex⟩ := frameMatch_getLast hf
  rw [List.getLast?_append_of_ne_nil _ hs] at hcl
  have hcmem : c ∈ sfx := List.mem_of_mem_getLast? (by rw [hcl]; rfl)
  rw [hnh c hcmem] at hchex
  exact Bool.false_ne_true hchex

/-- `dollarRegion` is the identity when the string does not end in a
newline. -/
theorem dollarRegion_of_getLast_ne {l : List Char} (h : ¬ l.getLast? = some '\n') :
    dollarRegion l = l := by
  rw [dollarRegion, if_neg h]

/-- `dollarRegion` strips the final newline when the string ends in one. -/
theorem dollarRegion_newline {l : List Char} (h : l.getLast? = some '\n') :
    dollarRegion l = l.dropLast := by
  rw [dollarRegion, if_pos h]

/-- Appending exactly one newline is undone by `dollarRegion`. -/
theorem dollarRegion_concat_newline (l : List Char) :
    dollarRegion (l ++ ['\n']) = l := by
  rw [dollarRegion, if_pos (List.getLast?_concat l), List.dropLast_concat]

/-- A wellformed frame line is its own `$`-region: it ends in a hex digit,
not a newline. -/
theorem dollarRegion_mkFrameLine {i ck : List Char} {data : List (List Char)}
    (hck : isHexPair ck = true) :
    dollarRegion (mkFrameLine i data ck) = mkFrameLine i data ck := by
  obtain ⟨c, hcg, hchex⟩ := @mkFrameLine_getLast i ck data hck
  refine dollarRegion_of_getLast_ne ?_
  rw [hcg]
  intro heq
  exact isLowerHexDigit_ne_newline hchex (Option.some.inj heq)

/-- Soundness of `parseLine`: an accepted line is a wellformed frame line,
possibly followed by one trailing newline (which Python's `$` accepts). -/
theorem parseLine_sound {l : List Char} {f : LinFrame} (h : parseLine l = some f) :
    isHexPair f.id = true ∧ (∀ g ∈ f.data, isHexPair g = true) ∧
    isHexPair f.checksum = true ∧ f.data ≠ [] ∧
    (l = mkFrameLine f.id f.data f.checksum
      ∨ l = mkFrameLine f.id f.data f.checksum ++ ['\n']) := by
  by_cases hl : l.getLast? = some '\n'
  · rw [parseLine, dollarRegion_newline hl] at h
    obtain ⟨h1, h2, h3, h4, h5⟩ := frameMatch_sound h
    refine ⟨h1, h2, h3, h4, Or.inr ?_⟩
    rw [← h5]
    exact eq_dropLast_concat_of_getLast? hl
  · rw [parseLine, dollarRegion_of_getLast_ne hl] at h
    obtain ⟨h1, h2, h3, h4, h5⟩ := frameMatch_sound h
    exact ⟨h1, h2, h3, h4, Or.inl h5⟩

/-- Completeness of `parseLine`: every wellformed frame line parses to the
frame it was built from. -/
theorem parseLine_complete {i ck : List Char} {data : List (List Char)}
    (hi : isHexPair i = true) (hck : isHexPair ck = true)
    (hdata : ∀ g ∈ data, isHexPair g = true) (hne : data ≠ []) :
    parseLine (mkFrameLine i data ck) = some ⟨i, data, ck⟩ := by
  rw [parseLine, dollarRegion_mkFrameLine hck]
  exact frameMatch_complete hi hck hdata hne

/-- `parseLine` also accepts a wellformed frame line with one trailing
newline, because `$` matches just before it. -/
theorem parseLine_newline_complete {i ck : List Char} {data : List (List Char)}
    (hi : isHexPair i = true) (hck : isHexPair ck = true)
    (hdata : ∀ g ∈ data, isHexPair g = true) (hne : data ≠ []) :
    parseLine (mkFrameLine i data ck ++ ['\n']) = some ⟨i, data, ck⟩ := by
  rw [parseLine, dollarRegion_concat_newline]
  exact frameMatch_complete hi hck hdata hne

/-- Every character of a line accepted by `parseLine` is a lowercase hex
digit, a space, or the final newline. -/
theorem parseLine_chars {l : List Char} {f : LinFrame} (h : parseLine l = some f) :
    ∀ c ∈ l, isLowerHexDigit c = true ∨ c = ' ' ∨ c = '\n' := by
  obtain ⟨hid, hdata, hck, -, hdisj⟩ := parseLine_sound h
  intro c hc
  rcases hdisj with rfl | rfl
  · rcases mkFrameLine_chars hid hck hdata c hc with h' | h'
    · exact Or.inl h'
    · exact Or.inr (Or.inl h')
  · rcases List.mem_append.mp hc with hmk | hnl
    · rcases mkFrameLine_chars hid hck hdata c hmk with h' | h'
      · exact Or.inl h'
      · exact Or.inr (Or.inl h')
    · exact Or.inr (Or.inr (List.mem_singleton.mp hnl))

/-- Dropping while a predicate holds skips over a block on which it holds
everywhere. -/
theorem dropWhile_all_append {p : Char → Bool} :
    ∀ (w l : List Char), (∀ c ∈ w, p c = true) →
      List.dropWhile p (w ++ l) = List.dropWhile p l
  | [], _, _ => rfl
  | a :: w, l, h => by
      rw [List.cons_append, List.dropWhile_cons,
        if_pos (h a (List.mem_cons_self a w))]
      exact dropWhile_all_append w l (fun c hc => h c (List.mem_cons_of_mem _ hc))

/-- The last whitespace-separated token of a line ending in `" c1c2"` plus
trailing whitespace, with non-whitespace `c1`, `c2`, is `[c1, c2]`. -/
theorem lastToken_append_pair {p ws : List Char} {c1 c2 : Char}
    (h1 : isPySpace c1 = false) (h2 : isPySpace c2 = false)
    (hws : ∀ c ∈ ws, isPySpace c = true) :
    lastToken ((p ++ [' ', c1, c2]) ++ ws) = [c1, c2] := by
  rw [lastToken, List.reverse_append]
  rw [dropWhile_all_append _ _ (fun c hc => hws c (List.mem_reverse.mp hc))]
  have hrev : (p ++ [' ', c1, c2]).reverse = c2 :: c1 :: ' ' :: p.reverse := by
    simp [List.reverse_append]
  rw [hrev]
  rw [List.dropWhile_cons, if_neg (by rw [h2]; exact Bool.false_ne_true)]
  rw [List.takeWhile_cons_of_pos (by rw [h2]; rfl),
    List.takeWhile_cons_of_pos (by rw [h1]; rfl),
    List.takeWhile_cons_of_neg (by decide)]
  rfl

/-- The last token of a line accepted by `parseLine` is its checksum, a hex
pair (the optional trailing newline is whitespace and is dropped by
`split()`). -/
theorem parseLine_lastToken {l : List Char} {f : LinFrame} (h : parseLine l = some f) :
    isHexPair (lastToken l) = true := by
  obtain ⟨-, -, hck, -, hdisj⟩ := parseLine_sound h
  obtain ⟨c1, c2, hckeq, hc1, hc2⟩ := exists_of_isHexPair hck
  have hmk : mkFrameLine f.id f.data f.checksum
      = (f.id ++ flatPairs f.data) ++ [' ', c1, c2] := by
    simp [mkFrameLine, flatPairs, hckeq]
  have hs1 := isLowerHexDigit_not_pySpace hc1
  have hs2 := isLowerHexDigit_not_pySpace hc2
  rcases hdisj with rfl | rfl
  · rw [hmk, ← List.append_nil ((f.id ++ flatPairs f.data) ++ [' ', c1, c2]),
      lastToken_append_pair hs1 hs2 (fun c hc => absurd hc (List.not_mem_nil c))]
    simp [isHexPair, hc1, hc2]
  · rw [hmk, lastToken_append_pair hs1 hs2
      (fun c hc => by rw [List.mem_singleton.mp hc]; rfl)]
    simp [isHexPair, hc1, hc2]

/-! ### Bit expansion lemmas -/

/-- A lowercase hex digit has value below 16. -/
theorem hexDigitVal_lt {c : Char} (h : isLowerHexDigit c = true) : hexDigitVal c < 16 := by
  have hc : (48 ≤ c.toNat ∧ c.toNat ≤ 57) ∨ (97 ≤ c.toNat ∧ c.toNat ≤ 102) := by
    simpa [isLowerHexDigit] using h
  rw [hexDigitVal]
  split <;> omega

/-- The value of a two-hex-digit string is a byte value. -/
theorem hexStrToNat_lt {s : List Char} (h : isHexPair s = true) : hexStrToNat s < 256 := by
  obtain ⟨a, b, rfl, ha, hb⟩ := exists_of_isHexPair h
  have h1 := hexDigitVal_lt ha
  have h2 := hexDigitVal_lt hb
  show 16 * (16 * 0 + hexDigitVal a) + hexDigitVal b < 256
  omega

set_option maxRecDepth 4000 in
/-- For every byte value, the padded binary rendering used by the program
equals the spec's most-significant-bit-first digit description. -/
theorem zfill8_toDigits_eq_specMsbBits :
    ∀ n < 256, zfill8 (Nat.toDigits 2 n) = specMsbBits n := by decide

/-- The spec's per-byte expansion always has 8 characters. -/
theorem length_specMsbBits (n : Nat) : (specMsbBits n).length = 8 := by
  simp [specMsbBits]

/-- `hexListToBitList` agrees with the spec's description on wellformed
input. -/
theorem hexListToBitList_eq_spec :
    ∀ hl : List (List Char), (∀ s ∈ hl, isHexPair s = true) →
    hexListToBitList hl = hl.flatMap (fun s => specMsbBits (hexStrToNat s))
  | [], _ => rfl
  | s :: t, h => by
      have hs := zfill8_toDigits_eq_specMsbBits (hexStrToNat s)
        (hexStrToNat_lt (h s (List.mem_cons_self s t)))
      have ih := hexListToBitList_eq_spec t (fun g hg => h g (List.mem_cons_of_mem _ hg))
      simp only [hexListToBitList, List.flatMap_cons] at *
      rw [hs, ih]

/-- The spec-side expansion of `N` bytes has `8 * N` characters. -/
theorem length_flatMap_specMsbBits :
    ∀ hl : List (List Char),
      (hl.flatMap (fun s => specMsbBits (hexStrToNat s))).length = 8 * hl.length
  | [] => rfl
  | s :: t => by
      rw [List.flatMap_cons, List.length_append, length_specMsbBits,
        length_flatMap_specMsbBits t, List.length_cons]
      omega

/-! ### Chunking lemmas -/

/-- Concatenating the chunks recovers the original string: `chunksAux` drops,
duplicates and reorders nothing. -/
theorem chunksAux_flatten (m : Nat) (s : List Char) : (chunksAux m s).flatten = s := by
  induction s using chunksAux.induct m with
  | case1 => simp [chunksAux]
  | case2 c rest ih =>
      rw [chunksAux, List.flatten_cons, List.cons_append, ih]
      rw [List.take_append_drop]

/-- Joining with the empty separator is concatenation. -/
theorem intercalate_nil_eq_flatten :
    ∀ xs : List (List Char), List.intercalate [] xs = xs.flatten
  | [] => rfl
  | [x] => by simp [List.intercalate]
  | x :: y :: t => by
      have ih := intercalate_nil_eq_flatten (y :: t)
      simp only [List.intercalate, List.intersperse_cons₂, List.flatten_cons] at *
      rw [ih]
      simp

/-! ### Step-function lemmas -/

/-- After any successfully parsed frame, the history table maps the frame's
identifier to the frame's bit sequence (this holds on every branch, crash
included, because the assignment precedes the diff). -/
theorem processDiffLine_hist_maps {ts : List Char} {hist : HistTable}
    {line : List Char} {f : LinFrame} (hp : parseLine line = some f) :
    lookupHist (processDiffLine ts hist line).hist f.id
      = some (hexListToBitList f.data) := by
  simp only [processDiffLine, hp]
  cases hl : lookupHist hist f.id with
  | none => simp [StepResult.hist, lookupHist_setHist_self]
  | some old =>
      by_cases he : hexListToBitList f.data = old
      · simp [he, StepResult.hist, lookupHist_setHist_self]
      · cases hd : diffBitLists old (hexListToBitList f.data) with
        | none => simp [he, hd, StepResult.hist, lookupHist_setHist_self]
        | some dm => simp [he, hd, StepResult.hist, lookupHist_setHist_self]

/-- A frame whose identifier has no history entry is recorded and produces no
output. -/
theorem processDiffLine_first_sighting {ts : List Char} {hist : HistTable}
    {line : List Char} {f : LinFrame} (hp : parseLine line = some f)
    (hl : lookupHist hist f.id = none) :
    processDiffLine ts hist line
      = .ok (setHist hist f.id (hexListToBitList f.data)) none := by
  simp [processDiffLine, hp, hl]

/-- A frame identical to the stored history is recorded and produces no
output. -/
theorem processDiffLine_unchanged {ts : List Char} {hist : HistTable}
    {line : List Char} {f : LinFrame} (hp : parseLine line = some f)
    (hl : lookupHist hist f.id = some (hexListToBitList f.data)) :
    processDiffLine ts hist line
      = .ok (setHist hist f.id (hexListToBitList f.data)) none := by
  simp [processDiffLine, hp, hl]

/-! ### Claims -/

/-- C1: for every line "ID B1 ... Bn CK" whose fields are two lowercase hex
digits with n ≥ 1 and single-space separators, `parseLine` returns the frame
with identifier ID, data [B1..Bn] in order and checksum CK; and `parseLine`
returns `none` for every line containing an uppercase hex letter, for every
line with zero data bytes (only ID and CK), and for every line whose
trailing token is not a two-hex-digit group. -/
theorem parseLine_valid_frames_and_rejections (i ck : List Char)
    (data : List (List Char)) (hi : isHexPair i = true) (hck : isHexPair ck = true)
    (hdata : ∀ g ∈ data, isHexPair g = true) (hne : data ≠ []) :
    parseLine (mkFrameLine i data ck) = some ⟨i, data, ck⟩
    ∧ (∀ l : List Char, (∃ c ∈ l, isUpperHexLetter c = true) → parseLine l = none)
    ∧ parseLine (mkFrameLine i [] ck) = none
    ∧ (∀ l : List Char, isHexPair (lastToken l) = false → parseLine l = none) := by
  refine ⟨parseLine_complete hi hck hdata hne, ?_, ?_, ?_⟩
  · rintro l ⟨c, hcl, hcu⟩
    by_contra hnone
    obtain ⟨f, hf⟩ := Option.ne_none_iff_exists'.mp hnone
    obtain ⟨hlow, hsp, hnl⟩ := isUpperHexLetter_not_lower hcu
    rcases parseLine_chars hf c hcl with h | h | h
    · rw [hlow] at h
      exact Bool.false_ne_true h
    · exact hsp h
    · exact hnl h
  · rw [parseLine, dollarRegion_mkFrameLine hck]
    obtain ⟨a, b, rfl, ha, hb⟩ := exists_of_isHexPair hi
    obtain ⟨c1, c2, rfl, hc1, hc2⟩ := exists_of_isHexPair hck
    have hps : parsePairs [' ', c1, c2] = some [[c1, c2]] := by
      have hfp := parsePairs_flatPairs [[c1, c2]]
        (by intro g hg; rw [List.mem_singleton.mp hg]; simp [isHexPair, hc1, hc2])
      simpa [flatPairs] using hfp
    have hline : mkFrameLine [a, b] [] [c1, c2] = a :: b :: [' ', c1, c2] := rfl
    rw [hline]
    simp [frameMatch, ha, hb, hps]
  · intro l hlt
    by_contra hnone
    obtain ⟨f, hf⟩ := Option.ne_none_iff_exists'.mp hnone
    rw [parseLine_lastToken hf] at hlt
    exact Bool.false_ne_true hlt.symm

/-- Witness for C1 at a concrete frame line. -/
theorem parseLine_valid_frames_and_rejections_witness :
    parseLine (mkFrameLine ['2', 'a'] [['0', '1']] ['f', 'f'])
      = some ⟨['2', 'a'], [['0', '1']], ['f', 'f']⟩ :=
  (parseLine_valid_frames_and_rejections ['2', 'a'] ['f', 'f'] [['0', '1']]
    (by decide) (by decide) (by decide) (by decide)).1

/-- C2: for stored and new bit sequences of the same length that are not
equal, the diff mask has the same length and holds the new bit where the
bits differ, `'-'` where they agree; old "0000" and new "0100" give "-1--". -/
theorem diffBitLists_mask_spec (old new : List Char)
    (hlen : old.length = new.length) (hne : new ≠ old) :
    (∃ m, diffBitLists old new = some m ∧ m.length = new.length ∧
      ∀ i, i < new.length →
        m.getD i ' ' = if new.getD i ' ' ≠ old.getD i ' ' then new.getD i ' ' else '-')
    ∧ diffBitLists "0000".toList "0100".toList = some "-1--".toList :=
  ⟨diffBitLists_spec old new hlen.ge, by decide⟩

/-- Witness for C2 at old "0000", new "0100". -/
theorem diffBitLists_mask_spec_witness :
    diffBitLists "0000".toList "0100".toList = some "-1--".toList :=
  (diffBitLists_mask_spec "0000".toList "0100".toList (by decide) (by decide)).2

/-- C6 counterexample: the valid frame line "ab cd ef" followed by the
non-empty, non-hex suffix "\n" is still accepted, because Python's `$`
matches just before a newline that ends the string — refuting the claim that
any extra trailing content is rejected. -/
theorem parseLine_trailing_newline_cex :
    "ab cd ef\n".toList = mkFrameLine ['a', 'b'] [['c', 'd']] ['e', 'f'] ++ ['\n']
    ∧ isLowerHexDigit '\n' = false
    ∧ parseLine "ab cd ef\n".toList
        = some ⟨['a', 'b'], [['c', 'd']], ['e', 'f']⟩ := by
  decide

/-- C6 amended: a valid frame line followed by a non-empty non-hex suffix is
rejected for every suffix except the single newline "\n"; a lone trailing
newline is accepted (the frame parses as if the newline were absent), since
`$` matches just before a final newline. -/
theorem parseLine_trailing_reject (i ck sfx : List Char) (data : List (List Char))
    (hi : isHexPair i = true) (hck : isHexPair ck = true)
    (hdata : ∀ g ∈ data, isHexPair g = true) (hne : data ≠ [])
    (hs : sfx ≠ []) (hnh : ∀ c ∈ sfx, isLowerHexDigit c = false)
    (hsn : sfx ≠ ['\n']) :
    parseLine (mkFrameLine i data ck ++ sfx) = none
    ∧ parseLine (mkFrameLine i data ck ++ ['\n']) = some ⟨i, data, ck⟩ := by
  refine ⟨?_, parseLine_newline_complete hi hck hdata hne⟩
  by_cases hl : (mkFrameLine i data ck ++ sfx).getLast? = some '\n'
  · rw [parseLine, dollarRegion_newline hl]
    rw [List.getLast?_append_of_ne_nil _ hs] at hl
    have hsfx : sfx = sfx.dropLast ++ ['\n'] := eq_dropLast_concat_of_getLast? hl
    have hdl : (mkFrameLine i data ck ++ sfx).dropLast
        = mkFrameLine i data ck ++ sfx.dropLast := by
      conv_lhs => rw [hsfx]
      rw [← List.append_assoc, List.dropLast_concat]
    rw [hdl]
    have hne2 : sfx.dropLast ≠ [] := by
      intro h0
      rw [h0] at hsfx
      simp only [List.nil_append] at hsfx
      exact hsn hsfx
    exact frameMatch_nonhex_end hne2
      (fun c hc => hnh c (List.dropLast_subset sfx hc))
  · rw [parseLine, dollarRegion_of_getLast_ne hl]
    exact frameMatch_nonhex_end hs hnh

/-- Witness for the amended C6: the " ERR" suffix is rejected, while the
same frame with only a trailing newline parses. -/
theorem parseLine_trailing_reject_witness :
    parseLine (mkFrameLine ['a', 'b'] [['c', 'd']] ['e', 'f'] ++ " ERR".toList) = none
    ∧ parseLine (mkFrameLine ['a', 'b'] [['c', 'd']] ['e', 'f'] ++ ['\n'])
      = some ⟨['a', 'b'], [['c', 'd']], ['e', 'f']⟩ :=
  parseLine_trailing_reject ['a', 'b'] ['e', 'f'] " ERR".toList [['c', 'd']]
    (by decide) (by decide) (by decide) (by decide) (by decide) (by decide) (by decide)

/-- C7 counterexample: an old list of 8 bits and a new list of 4 bits have
different lengths, yet `diffBitLists` returns a result instead of failing —
the claim that any length mismatch indexes out of range is false. -/
theorem diffBitLists_length_mismatch_cex :
    "00000000".toList.length ≠ "0000".toList.length
    ∧ diffBitLists "00000000".toList "0000".toList = some "----".toList := by
  decide

/-- C7 amended: the out-of-range indexing happens exactly when the new bit
list is longer than the stored old one; when the new list is no longer, a
(possibly misaligned) mask of the new list's length is returned. -/
theorem diffBitLists_length_mismatch_amended (old new : List Char) :
    (old.length < new.length → diffBitLists old new = none)
    ∧ (new.length ≤ old.length →
        ∃ m, diffBitLists old new = some m ∧ m.length = new.length) := by
  constructor
  · exact diffBitLists_oob old new
  · intro h
    obtain ⟨m, hm, hlen, -⟩ := diffBitLists_spec old new h
    exact ⟨m, hm, hlen⟩

/-- Witness for the amended C7: a new list longer than the old one fails. -/
theorem diffBitLists_length_mismatch_amended_witness :
    diffBitLists "0000".toList "00000000".toList = none :=
  (diffBitLists_length_mismatch_amended "0000".toList "00000000".toList).1 (by decide)

/-- C9: in diff mode, a line on which `parseLine` returns `none` produces no
output and leaves the history table exactly unchanged. -/
theorem processDiffLine_skips_malformed (ts : List Char) (hist : HistTable)
    (line : List Char) (hp : parseLine line = none) :
    processDiffLine ts hist line = .ok hist none := by
  simp [processDiffLine, hp]

/-- Witness for C9 on a non-frame line. -/
theorem processDiffLine_skips_malformed_witness :
    processDiffLine "00000.000".toList [] "hello world".toList = .ok [] none :=
  processDiffLine_skips_malformed "00000.000".toList [] "hello world".toList (by decide)

/-- C3: the first update for a never-seen identifier stores the sequence and
yields no diff output; and after processing any successfully parsed frame,
the history table maps the frame's identifier to that frame's bit
sequence (the store is overwritten whether or not a diff is emitted). -/
theorem processDiffLine_history (ts : List Char) (hist : HistTable)
    (line : List Char) (f : LinFrame) (hp : parseLine line = some f) :
    (lookupHist hist f.id = none →
      processDiffLine ts hist line
        = .ok (setHist hist f.id (hexListToBitList f.data)) none)
    ∧ lookupHist (processDiffLine ts hist line).hist f.id
        = some (hexListToBitList f.data) :=
  ⟨fun hl => processDiffLine_first_sighting hp hl, processDiffLine_hist_maps hp⟩

/-- Witness for C3: first sighting of identifier "2a" on an empty table. -/
theorem processDiffLine_history_witness :
    processDiffLine "00000.000".toList [] "2a 01 ff".toList
      = .ok (setHist [] ['2', 'a'] (hexListToBitList [['0', '1']])) none
    ∧ lookupHist (processDiffLine "00000.000".toList [] "2a 01 ff".toList).hist ['2', 'a']
      = some (hexListToBitList [['0', '1']]) :=
  ⟨(processDiffLine_history "00000.000".toList [] "2a 01 ff".toList
      ⟨['2', 'a'], [['0', '1']], ['f', 'f']⟩ (by decide)).1 (by decide),
   (processDiffLine_history "00000.000".toList [] "2a 01 ff".toList
      ⟨['2', 'a'], [['0', '1']], ['f', 'f']⟩ (by decide)).2⟩

/-- C4: on a list of N two-lowercase-hex-digit strings, `hexListToBitList`
returns exactly 8N bits, each byte contributing the zero-padded
most-significant-bit-first binary digits of its value in [0,255]; "ff", "00"
and "0a" expand as documented. -/
theorem hexListToBitList_spec (hl : List (List Char))
    (hhex : ∀ s ∈ hl, isHexPair s = true) :
    (hexListToBitList hl).length = 8 * hl.length
    ∧ hexListToBitList hl = hl.flatMap (fun s => specMsbBits (hexStrToNat s))
    ∧ (∀ s ∈ hl, hexStrToNat s < 256)
    ∧ hexListToBitList [['f', 'f']] = "11111111".toList
    ∧ hexListToBitList [['0', '0']] = "00000000".toList
    ∧ hexListToBitList [['0', 'a']] = "00001010".toList := by
  refine ⟨?_, hexListToBitList_eq_spec hl hhex,
    fun s hs => hexStrToNat_lt (hhex s hs), by decide, by decide, by decide⟩
  rw [hexListToBitList_eq_spec hl hhex]
  exact length_flatMap_specMsbBits hl

/-- Witness for C4 on the single byte "0a". -/
theorem hexListToBitList_spec_witness :
    (hexListToBitList [['0', 'a']]).length = 8 * ([['0', 'a']] : List (List Char)).length
    ∧ hexListToBitList [['0', 'a']]
        = ([['0', 'a']] : List (List Char)).flatMap (fun s => specMsbBits (hexStrToNat s)) :=
  ⟨(hexListToBitList_spec [['0', 'a']] (by decide)).1,
   (hexListToBitList_spec [['0', 'a']] (by decide)).2.1⟩

/-- C5: the diff output is grouped in two compounding passes — the mask is
split into chunks of 4 joined by a space, and that already-separated string
into chunks of 10 joined by "| " — the 16-character input of all '0's gives
exactly "0000 0000 | 0000 0000", and the emitted line has the shape
"<timestamp>  <identifier>: | <grouped diff> |". -/
theorem processDiffLine_output_grouping (ts : List Char) (hist : HistTable)
    (line : List Char) (f : LinFrame) (old mask : List Char)
    (hp : parseLine line = some f)
    (hold : lookupHist hist f.id = some old)
    (hne : hexListToBitList f.data ≠ old)
    (hdiff : diffBitLists old (hexListToBitList f.data) = some mask) :
    processDiffLine ts hist line
      = .ok (setHist hist f.id (hexListToBitList f.data))
          (some (ts ++ "  ".toList ++ f.id ++ ": | ".toList
            ++ insertSeperators (insertSeperators mask 4 [' ']) 10 ['|', ' ']
            ++ " |\n".toList))
    ∧ insertSeperators "0000000000000000".toList 4 [' ']
        = "0000 0000 0000 0000".toList
    ∧ insertSeperators "0000 0000 0000 0000".toList 10 ['|', ' ']
        = "0000 0000 | 0000 0000".toList := by
  refine ⟨?_, by simp [insertSeperators, chunksAux, List.intercalate],
    by simp [insertSeperators, chunksAux, List.intercalate]⟩
  simp [processDiffLine, hp, hold, hne, hdiff]

/-- Witness for C5: bytes 01 02 stored, frame "2a 01 03 ff" arrives; one
grouped diff line is emitted. -/
theorem processDiffLine_output_grouping_witness :
    processDiffLine "00001.000".toList
        [(['2', 'a'], hexListToBitList [['0', '1'], ['0', '2']])] "2a 01 03 ff".toList
      = .ok (setHist [(['2', 'a'], hexListToBitList [['0', '1'], ['0', '2']])] ['2', 'a']
            (hexListToBitList [['0', '1'], ['0', '3']]))
          (some ("00001.000".toList ++ "  ".toList ++ ['2', 'a'] ++ ": | ".toList
            ++ insertSeperators
                (insertSeperators "---------------1".toList 4 [' ']) 10 ['|', ' ']
            ++ " |\n".toList)) :=
  (processDiffLine_output_grouping "00001.000".toList
    [(['2', 'a'], hexListToBitList [['0', '1'], ['0', '2']])] "2a 01 03 ff".toList
    ⟨['2', 'a'], [['0', '1'], ['0', '3']], ['f', 'f']⟩
    (hexListToBitList [['0', '1'], ['0', '2']]) "---------------1".toList
    (by decide) (by decide) (by decide) (by decide)).1

/-- C8: when the stored history for the frame's identifier equals the new
bit sequence, the frame is suppressed (no output); in particular feeding the
same line twice in a row yields no output on the second step. -/
theorem processDiffLine_idempotent (ts : List Char) (hist : HistTable)
    (line : List Char) (f : LinFrame) (hp : parseLine line = some f)
    (hl : lookupHist hist f.id = some (hexListToBitList f.data)) :
    processDiffLine ts hist line
      = .ok (setHist hist f.id (hexListToBitList f.data)) none
    ∧ ∀ h0 : HistTable,
        processDiffLine ts (processDiffLine ts h0 line).hist line
          = .ok (setHist (processDiffLine ts h0 line).hist f.id
              (hexListToBitList f.data)) none :=
  ⟨processDiffLine_unchanged hp hl,
   fun _ => processDiffLine_unchanged hp (processDiffLine_hist_maps hp)⟩

/-- Witness for C8: identifier "2a" already stores the bits of the incoming
frame; the repeat step and the twice-in-a-row step both emit nothing. -/
theorem processDiffLine_idempotent_witness :
    processDiffLine "00000.000".toList [(['2', 'a'], hexListToBitList [['0', '1']])]
        "2a 01 ff".toList
      = .ok (setHist [(['2', 'a'], hexListToBitList [['0', '1']])] ['2', 'a']
          (hexListToBitList [['0', '1']])) none
    ∧ processDiffLine "00000.000".toList
        (processDiffLine "00000.000".toList [] "2a 01 ff".toList).hist "2a 01 ff".toList
      = .ok (setHist (processDiffLine "00000.000".toList [] "2a 01 ff".toList).hist
          ['2', 'a'] (hexListToBitList [['0', '1']])) none :=
  ⟨(processDiffLine_idempotent "00000.000".toList
      [(['2', 'a'], hexListToBitList [['0', '1']])] "2a 01 ff".toList
      ⟨['2', 'a'], [['0', '1']], ['f', 'f']⟩ (by decide) (by decide)).1,
   (processDiffLine_idempotent "00000.000".toList
      [(['2', 'a'], hexListToBitList [['0', '1']])] "2a 01 ff".toList
      ⟨['2', 'a'], [['0', '1']], ['f', 'f']⟩ (by decide) (by decide)).2 []⟩

/-- The chunks produced by `chunksAux` are nonempty and no longer than the
chunk size. -/
theorem chunksAux_mem_length (m : Nat) (s : List Char) :
    ∀ ch ∈ chunksAux m s, ch ≠ [] ∧ ch.length ≤ m + 1 := by
  induction s using chunksAux.induct m with
  | case1 =>
      intro ch hch
      rw [chunksAux] at hch
      simp at hch
  | case2 c rest ih =>
      intro ch hch
      rw [chunksAux] at hch
      rcases List.mem_cons.mp hch with rfl | h2
      · refine ⟨by simp, ?_⟩
        simp only [List.length_cons, List.length_take]
        omega
      · exact ih ch h2

/-- C10: `insertSeperators` preserves the input's characters: concatenating
the chunks yields the input unchanged (so joining with the empty separator is
the identity), the empty string maps to the empty string, and every chunk is
nonempty and at most the chunk size (a short final chunk is kept as-is). -/
theorem insertSeperators_preserves_chars (s sep : List Char) (n : Nat) (h : 1 ≤ n) :
    (chunksAux (n - 1) s).flatten = s
    ∧ insertSeperators s n [] = s
    ∧ insertSeperators [] n sep = []
    ∧ ∀ ch ∈ chunksAux (n - 1) s, ch ≠ [] ∧ ch.length ≤ n := by
  obtain ⟨m, rfl⟩ : ∃ m, n = m + 1 := ⟨n - 1, by omega⟩
  refine ⟨chunksAux_flatten m s, ?_, ?_, ?_⟩
  · show List.intercalate [] (chunksAux m s) = s
    rw [intercalate_nil_eq_flatten, chunksAux_flatten]
  · show List.intercalate sep (chunksAux m []) = []
    rw [chunksAux]
    rfl
  · simpa using chunksAux_mem_length m s

/-- Witness for C10 with chunk size 4 on a 10-character string. -/
theorem insertSeperators_preserves_chars_witness :
    (chunksAux 3 "abcdefghij".toList).flatten = "abcdefghij".toList
    ∧ insertSeperators "abcdefghij".toList 4 [] = "abcdefghij".toList :=
  ⟨(insertSeperators_preserves_chars "abcdefghij".toList "| ".toList 4 (by decide)).1,
   (insertSeperators_preserves_chars "abcdefghij".toList "| ".toList 4 (by decide)).2.1⟩
